import Mathlib

/-!
Verification of the update-payload extraction core of a MongoDB repository
base class (`RepoBase` in `src/base.repo.ts`), together with the relevant
response-shaping logic of `findOne` and `insertOne`.

JavaScript values occurring in update expressions are embedded as the
inductive type `Val`. A JavaScript object is embedded as its list of own
enumerable string-keyed entries in the order `Object.entries` yields them;
assignment `o[k] = v` is `setKey` (overwrite in place, or append a new key),
and property read is `lookupKey`. A thrown exception is `Except.error`, so a
throwing run returns no payload at all, exactly like the source.
-/

namespace Zongo

/-- Embedded JavaScript values as they occur in this repository's update
expressions and documents: primitives, `null`, `undefined`, `Date`
instances, Mongo `ObjectId` instances, and plain objects (given by their
`Object.entries` list, in iteration order). -/
inductive Val where
  | str (s : String)
  | num (n : Int)
  | boolean (b : Bool)
  | null
  | undef
  | date (t : Nat)
  | objectId (oid : Nat)
  | obj (fields : List (String × Val))

/-- An update expression / document: the `Object.entries` list of a
JavaScript object, in iteration order. -/
abbrev Entries := List (String × Val)

/-- JavaScript property assignment `o[k] = v`: overwrite the value in place
if the key is present, otherwise append the key at the end. -/
def setKey (m : Entries) (k : String) (v : Val) : Entries :=
  match m with
  | [] => [(k, v)]
  | p :: rest => if p.1 = k then (k, v) :: rest else p :: setKey rest k v

/-- JavaScript property read `o[k]`: the value stored at key `k`, if any. -/
def lookupKey (m : Entries) (k : String) : Option Val :=
  match m with
  | [] => none
  | p :: rest => if p.1 = k then some p.2 else lookupKey rest k

/-- `key.includes(".")`: the key contains the path-separator character. -/
def hasDot (k : String) : Bool := k.data.any (fun c => c == '.')

/-- `key.startsWith("$")`: the key's first character is the operator
prefix. -/
def isOpKey (k : String) : Bool :=
  match k.data with
  | c :: _ => c == '$'
  | [] => false

/-- The exact message of the error thrown on a dotted key
(`base.repo.ts:580-582` and `base.repo.ts:593-595`). -/
def dotMsg (k : String) : String :=
  "Dot notation keys are not supported yet: \"" ++ k ++ "\""

/-- The guard `typeof val === "object" && val !== null`
(`base.repo.ts:575`). `Date` and `ObjectId` instances have
`typeof === "object"`, so they pass the guard. -/
def isNonNullObject : Val → Bool
  | .obj _ => true
  | .date _ => true
  | .objectId _ => true
  | _ => false

/-- `Object.entries val` (`base.repo.ts:576-578`): the own enumerable
string-keyed entries. `Date` and `ObjectId` instances have none. -/
def ownEntries : Val → Entries
  | .obj fields => fields
  | _ => []

/-- The inner loop of `walk` over one operator block's entries
(`base.repo.ts:576-589`): reject dotted field names, otherwise write the
field value — or the absence marker `undefined` when the operator is
`$unset` — into the accumulator. -/
def walkOp (opKey : String) (fields : Entries) (acc : Entries) :
    Except String Entries :=
  match fields with
  | [] => .ok acc
  | q :: rest =>
    if hasDot q.1 then .error (dotMsg q.1)
    else walkOp opKey rest
      (setKey acc q.1 (if opKey = "$unset" then Val.undef else q.2))

/-- The `walk` loop of `extractUpdatePayload` (`base.repo.ts:572-601`): a
single pass over the update expression's entries in iteration order. A
`$`-prefixed key with a non-null-object value has its nested entries
processed by `walkOp`; a `$`-prefixed key with any other value is skipped;
a direct key is dot-checked and written verbatim. -/
def walk (entries : Entries) (acc : Entries) : Except String Entries :=
  match entries with
  | [] => .ok acc
  | (key, val) :: rest =>
    if isOpKey key then
      if isNonNullObject val then
        match walkOp key (ownEntries val) acc with
        | .error e => .error e
        | .ok acc2 => walk rest acc2
      else walk rest acc
    else
      if hasDot key then .error (dotMsg key)
      else walk rest (setKey acc key val)

/-- `extractUpdatePayload` (`base.repo.ts:569-605`): walk the update
expression starting from an empty accumulator; a thrown dot-notation error
aborts the whole extraction with no payload. -/
def extractUpdatePayload (update : Entries) : Except String Entries :=
  walk update []

/-- The flat sequence of field writes an update expression performs, in
processing order: a `$`-prefixed entry with a non-null-object value
contributes its nested entries (with `$unset` values replaced by the
absence marker), any other `$`-prefixed entry contributes nothing, and a
direct entry contributes itself. -/
def entryWrites (p : String × Val) : Entries :=
  if isOpKey p.1 then
    if isNonNullObject p.2 then
      (ownEntries p.2).map (fun q => (q.1, if p.1 = "$unset" then Val.undef else q.2))
    else []
  else [p]

/-- All field writes of an update expression, in processing order. -/
def fieldWrites (entries : Entries) : Entries :=
  match entries with
  | [] => []
  | p :: rest => entryWrites p ++ fieldWrites rest

/-- Replay a list of field writes onto an accumulator object. -/
def applyWrites (acc : Entries) (ws : Entries) : Entries :=
  match ws with
  | [] => acc
  | q :: rest => applyWrites (setKey acc q.1 q.2) rest

/-- The value of the last write to field `f` in a write list, if any. -/
def lastVal (ws : Entries) (f : String) : Option Val :=
  match ws with
  | [] => none
  | q :: rest =>
    match lastVal rest f with
    | some v => some v
    | none => if q.1 = f then some q.2 else none

/-- Whether every field name an entry exposes to the walk is dot-free. -/
def entryDotFree (p : String × Val) : Bool :=
  if isOpKey p.1 then (ownEntries p.2).all (fun q => !hasDot q.1)
  else !hasDot p.1

/-- Whether an update expression contains no dotted field name anywhere the
walk inspects one. -/
def dotFreeExpr (entries : Entries) : Bool := entries.all entryDotFree

/-- The dotted (hence offending) field names of an update expression, in
the order the walk inspects them: nested names of operator blocks with
non-null-object values, and direct keys. -/
def dottedKeys (entries : Entries) : List String :=
  match entries with
  | [] => []
  | p :: rest =>
    (if isOpKey p.1 then
      (if isNonNullObject p.2 then
        ((ownEntries p.2).filter (fun q => hasDot q.1)).map (fun q => q.1)
      else [])
    else if hasDot p.1 then [p.1] else []) ++ dottedKeys rest

theorem lookupKey_setKey (m : Entries) (k : String) (v : Val) (f : String) :
    lookupKey (setKey m k v) f = if f = k then some v else lookupKey m f := by
  induction m with
  | nil =>
    by_cases h : f = k
    · simp [setKey, lookupKey, h]
    · simp [setKey, lookupKey, h, Ne.symm h]
  | cons p rest ih =>
    by_cases hp : p.1 = k
    · by_cases hf : f = k
      · simp [setKey, lookupKey, hp, hf]
      · have h1 : ¬ k = f := Ne.symm hf
        have h2 : ¬ p.1 = f := by rw [hp]; exact h1
        simp [setKey, lookupKey, hp, hf, h1, h2]
    · by_cases hpf : p.1 = f
      · have hf : ¬ f = k := by rw [← hpf]; exact hp
        simp [setKey, lookupKey, hp, hpf, hf]
      · simp [setKey, lookupKey, hp, hpf, ih]

theorem lookupKey_applyWrites (acc : Entries) (ws : Entries) (f : String) :
    lookupKey (applyWrites acc ws) f =
      match lastVal ws f with
      | some v => some v
      | none => lookupKey acc f := by
  induction ws generalizing acc with
  | nil => simp [applyWrites, lastVal]
  | cons q rest ih =>
    have hcons : lastVal (q :: rest) f =
        match lastVal rest f with
        | some v => some v
        | none => if q.1 = f then some q.2 else none := rfl
    rw [hcons]
    have happ : applyWrites acc (q :: rest) = applyWrites (setKey acc q.1 q.2) rest := rfl
    rw [happ, ih, lookupKey_setKey]
    cases lastVal rest f with
    | some v => rfl
    | none =>
      by_cases h : q.1 = f
      · simp [h]
      · simp [h, Ne.symm h]

theorem lastVal_append (u v : Entries) (f : String) :
    lastVal (u ++ v) f =
      match lastVal v f with
      | some w => some w
      | none => lastVal u f := by
  induction u with
  | nil =>
    cases h : lastVal v f <;> simp [lastVal, h]
  | cons q rest ih =>
    have hcons : ∀ (ws : Entries), lastVal (q :: ws) f =
        match lastVal ws f with
        | some w => some w
        | none => if q.1 = f then some q.2 else none := fun _ => rfl
    rw [List.cons_append, hcons, hcons, ih]
    cases lastVal v f <;> cases lastVal rest f <;> rfl

theorem applyWrites_append (acc : Entries) (u v : Entries) :
    applyWrites acc (u ++ v) = applyWrites (applyWrites acc u) v := by
  induction u generalizing acc with
  | nil => simp [applyWrites]
  | cons q rest ih => simp [applyWrites, ih]

theorem walk_append (a b : Entries) (acc : Entries) :
    walk (a ++ b) acc =
      match walk a acc with
      | .error e => .error e
      | .ok m => walk b m := by
  induction a generalizing acc with
  | nil => simp [walk]
  | cons p rest ih =>
    obtain ⟨key, val⟩ := p
    by_cases hk : isOpKey key
    · by_cases hv : isNonNullObject val
      · simp only [List.cons_append, walk, hk, hv, if_true]
        cases walkOp key (ownEntries val) acc with
        | error e => simp
        | ok acc2 => simpa using ih acc2
      · simpa [walk, hk, hv] using ih acc
    · by_cases hd : hasDot key
      · simp [walk, hk, hd]
      · simpa [walk, hk, hd] using ih (setKey acc key val)

theorem walkOp_ok (opKey : String) (fields : Entries) (acc : Entries)
    (h : fields.all (fun q => !hasDot q.1) = true) :
    walkOp opKey fields acc =
      .ok (applyWrites acc
        (fields.map (fun q => (q.1, if opKey = "$unset" then Val.undef else q.2)))) := by
  induction fields generalizing acc with
  | nil => simp [walkOp, applyWrites]
  | cons q rest ih =>
    simp only [List.all_cons, Bool.and_eq_true, Bool.not_eq_true'] at h
    simp [walkOp, h.1, applyWrites, ih _ h.2]

theorem walk_ok (entries : Entries) (acc : Entries)
    (h : dotFreeExpr entries = true) :
    walk entries acc = .ok (applyWrites acc (fieldWrites entries)) := by
  induction entries generalizing acc with
  | nil => simp [walk, fieldWrites, applyWrites]
  | cons p rest ih =>
    obtain ⟨key, val⟩ := p
    simp only [dotFreeExpr, List.all_cons, Bool.and_eq_true] at h
    by_cases hk : isOpKey key
    · by_cases hv : isNonNullObject val
      · have hblock : (ownEntries val).all (fun q => !hasDot q.1) = true := by
          have := h.1
          simpa [entryDotFree, hk] using this
        simp [walk, hk, hv, walkOp_ok key (ownEntries val) acc hblock,
          fieldWrites, entryWrites, applyWrites_append, ih _ h.2]
      · simp [walk, hk, hv, fieldWrites, entryWrites, ih _ h.2, applyWrites]
    · have hd : hasDot key = false := by
        have := h.1
        simpa [entryDotFree, hk] using this
      simp [walk, hk, hd, fieldWrites, entryWrites, applyWrites, ih _ h.2]

theorem walk_error_of_dotted (entries : Entries) (acc : Entries) (k : String)
    (ks : List String) (h : dottedKeys entries = k :: ks) :
    walk entries acc = .error (dotMsg k) := by
  induction entries generalizing acc k ks with
  | nil => simp [dottedKeys] at h
  | cons p rest ih =>
    obtain ⟨key, val⟩ := p
    by_cases hk : isOpKey key
    · by_cases hv : isNonNullObject val
      · simp only [dottedKeys] at h
        rw [if_pos hk, if_pos hv] at h
        cases hblock : ((ownEntries val).filter (fun q => hasDot q.1)).map (fun q => q.1) with
        | nil =>
          rw [hblock, List.nil_append] at h
          have hall : (ownEntries val).all (fun q => !hasDot q.1) = true := by
            rw [List.map_eq_nil_iff, List.filter_eq_nil_iff] at hblock
            simp only [List.all_eq_true, Bool.not_eq_true']
            intro q hq
            simpa using hblock q hq
          simp [walk, hk, hv, walkOp_ok key (ownEntries val) acc hall, ih _ _ _ h]
        | cons k0 ks0 =>
          rw [hblock, List.cons_append] at h
          simp only [List.cons.injEq] at h
          obtain ⟨hk0, -⟩ := h
          subst hk0
          have hfirst : ∀ (fs : Entries) (acc2 : Entries),
              (fs.filter (fun q => hasDot q.1)).map (fun q => q.1) = k0 :: ks0 →
              walkOp key fs acc2 = .error (dotMsg k0) := by
            intro fs
            induction fs with
            | nil => intro acc2 hh; simp at hh
            | cons q qrest ihq =>
              intro acc2 hh
              by_cases hq : hasDot q.1
              · simp only [List.filter_cons, hq, if_true, List.map_cons,
                  List.cons.injEq] at hh
                have hq0 : hasDot k0 = true := hh.1 ▸ hq
                simp [walkOp, hq, hq0, hh.1]
              · simp only [List.filter_cons, hq] at hh
                simp [walkOp, hq, ihq _ hh]
          simp [walk, hk, hv, hfirst (ownEntries val) acc hblock]
      · simp only [dottedKeys] at h
        rw [if_pos hk, if_neg hv, List.nil_append] at h
        simp [walk, hk, hv, ih _ _ _ h]
    · by_cases hd : hasDot key
      · simp only [dottedKeys] at h
        rw [if_neg hk, if_pos hd, List.singleton_append] at h
        simp only [List.cons.injEq] at h
        obtain ⟨hk0, -⟩ := h
        subst hk0
        simp [walk, hk, hd]
      · simp only [dottedKeys] at h
        rw [if_neg hk, if_neg hd, List.nil_append] at h
        simp [walk, hk, hd, ih _ _ _ h]

theorem fieldWrites_append (a b : Entries) :
    fieldWrites (a ++ b) = fieldWrites a ++ fieldWrites b := by
  induction a with
  | nil => simp [fieldWrites]
  | cons p rest ih => simp [fieldWrites, ih]

theorem dottedKeys_nil_iff (entries : Entries) :
    dottedKeys entries = [] ↔ dotFreeExpr entries = true := by
  induction entries with
  | nil => simp [dottedKeys, dotFreeExpr]
  | cons p rest ih =>
    have hcons : dottedKeys (p :: rest) =
        (if isOpKey p.1 then
          (if isNonNullObject p.2 then
            ((ownEntries p.2).filter (fun q => hasDot q.1)).map (fun q => q.1)
          else [])
        else if hasDot p.1 then [p.1] else []) ++ dottedKeys rest := rfl
    rw [hcons]
    simp only [dotFreeExpr, List.all_cons, Bool.and_eq_true, List.append_eq_nil, ih]
    constructor
    · rintro ⟨hblk, hrest⟩
      refine ⟨?_, hrest⟩
      by_cases hk : isOpKey p.1
      · by_cases hv : isNonNullObject p.2
        · rw [if_pos hk, if_pos hv] at hblk
          rw [List.map_eq_nil_iff, List.filter_eq_nil_iff] at hblk
          simp only [entryDotFree, hk, if_true, List.all_eq_true, Bool.not_eq_true']
          intro q hq
          simpa using hblk q hq
        · have hown : ownEntries p.2 = [] := by
            cases h2 : p.2 <;> simp_all [isNonNullObject, ownEntries]
          simp [entryDotFree, hk, hown]
      · rw [if_neg hk] at hblk
        by_cases hd : hasDot p.1
        · rw [if_pos hd] at hblk
          simp at hblk
        · simp [entryDotFree, hk, hd]
    · rintro ⟨hfree, hrest⟩
      refine ⟨?_, hrest⟩
      by_cases hk : isOpKey p.1
      · rw [if_pos hk]
        by_cases hv : isNonNullObject p.2
        · rw [if_pos hv, List.map_eq_nil_iff, List.filter_eq_nil_iff]
          simp only [entryDotFree, hk, if_true, List.all_eq_true, Bool.not_eq_true'] at hfree
          intro q hq
          simpa using hfree q hq
        · rw [if_neg hv]
      · simp only [entryDotFree, hk, Bool.false_eq_true, if_false,
          Bool.not_eq_true'] at hfree
        simp [hk, hfree]

theorem walk_ok_dotFree (entries : Entries) (acc : Entries) (p : Entries)
    (h : walk entries acc = .ok p) : dotFreeExpr entries = true := by
  by_contra hdf
  have hne : dottedKeys entries ≠ [] := by
    intro hnil
    exact hdf ((dottedKeys_nil_iff entries).mp hnil)
  cases hd : dottedKeys entries with
  | nil => exact hne hd
  | cons k ks =>
    rw [walk_error_of_dotted entries acc k ks hd] at h
    simp at h

theorem lastVal_isSome_iff (ws : Entries) (f : String) :
    (lastVal ws f).isSome = true ↔ ∃ q ∈ ws, q.1 = f := by
  induction ws with
  | nil => simp [lastVal]
  | cons q rest ih =>
    have hcons : lastVal (q :: rest) f =
        match lastVal rest f with
        | some v => some v
        | none => if q.1 = f then some q.2 else none := rfl
    rw [hcons]
    cases hr : lastVal rest f with
    | some v =>
      simp only [Option.isSome_some, true_iff]
      rw [hr] at ih
      simp only [Option.isSome_some, true_iff] at ih
      obtain ⟨q2, hq2, hq2f⟩ := ih
      exact ⟨q2, List.mem_cons_of_mem _ hq2, hq2f⟩
    | none =>
      rw [hr] at ih
      simp only [Option.isSome_none, Bool.false_eq_true, false_iff] at ih
      by_cases hq : q.1 = f
      · simp only [hq, if_true, Option.isSome_some, true_iff]
        exact ⟨q, List.mem_cons_self q rest, hq⟩
      · simp only [hq, if_false, Option.isSome_none, Bool.false_eq_true, false_iff]
        rintro ⟨q2, hq2, hq2f⟩
        rcases List.mem_cons.mp hq2 with h2 | h2
        · exact hq (h2 ▸ hq2f)
        · exact ih ⟨q2, h2, hq2f⟩

theorem lastVal_map_opVal (fs : Entries) (f : String) (g : Val → Val) :
    lastVal (fs.map (fun q => (q.1, g q.2))) f = (lastVal fs f).map g := by
  induction fs with
  | nil => simp [lastVal]
  | cons q rest ih =>
    have hcons : ∀ (q2 : String × Val) (ws : Entries), lastVal (q2 :: ws) f =
        match lastVal ws f with
        | some v => some v
        | none => if q2.1 = f then some q2.2 else none := fun _ _ => rfl
    rw [List.map_cons, hcons, hcons, ih]
    cases lastVal rest f with
    | some v => rfl
    | none =>
      by_cases hq : q.1 = f
      · simp [hq]
      · simp [hq]

/-- A field name the extraction rejects: it contains the path separator and
occurs either as a direct (non-operator) top-level key or nested inside an
operator block (an operator-prefixed key whose value is an object). -/
def isOffendingKey (entries : Entries) (k : String) : Prop :=
  hasDot k = true ∧
    ((∃ v, (k, v) ∈ entries ∧ isOpKey k = false) ∨
     (∃ opk fields v, (opk, Val.obj fields) ∈ entries ∧ isOpKey opk = true ∧
       (k, v) ∈ fields))

theorem mem_dottedKeys_iff (entries : Entries) (k : String) :
    k ∈ dottedKeys entries ↔ isOffendingKey entries k := by
  induction entries with
  | nil => simp [dottedKeys, isOffendingKey]
  | cons p rest ih =>
    obtain ⟨p1, p2⟩ := p
    have hcons : dottedKeys ((p1, p2) :: rest) =
        (if isOpKey p1 then
          (if isNonNullObject p2 then
            ((ownEntries p2).filter (fun q => hasDot q.1)).map (fun q => q.1)
          else [])
        else if hasDot p1 then [p1] else []) ++ dottedKeys rest := rfl
    rw [hcons]
    constructor
    · intro hmem
      rcases List.mem_append.mp hmem with hblk | hrest
      · by_cases hk : isOpKey p1
        · by_cases hv : isNonNullObject p2
          · rw [if_pos hk, if_pos hv] at hblk
            obtain ⟨q, hq, hq1⟩ := List.mem_map.mp hblk
            obtain ⟨hqmem, hqdot⟩ := List.mem_filter.mp hq
            cases h2 : p2 with
            | obj fields =>
              rw [h2] at hqmem
              refine ⟨hq1 ▸ hqdot, Or.inr ⟨p1, fields, q.2, ?_, hk, ?_⟩⟩
              · exact List.mem_cons_self _ _
              · rw [← hq1]
                exact hqmem
            | str s => simp [ownEntries, h2] at hqmem
            | num n => simp [ownEntries, h2] at hqmem
            | boolean b => simp [ownEntries, h2] at hqmem
            | null => simp [ownEntries, h2] at hqmem
            | undef => simp [ownEntries, h2] at hqmem
            | date t => simp [ownEntries, h2] at hqmem
            | objectId oid => simp [ownEntries, h2] at hqmem
          · rw [if_pos hk, if_neg hv] at hblk
            simp at hblk
        · rw [if_neg hk] at hblk
          by_cases hd : hasDot p1
          · rw [if_pos hd] at hblk
            have hkp : k = p1 := List.mem_singleton.mp hblk
            subst hkp
            exact ⟨hd, Or.inl ⟨p2, List.mem_cons_self _ _, Bool.not_eq_true _ ▸ hk⟩⟩
          · rw [if_neg hd] at hblk
            simp at hblk
      · obtain ⟨hdot, hcase⟩ := ih.mp hrest
        refine ⟨hdot, ?_⟩
        rcases hcase with ⟨v, hmem2, hop⟩ | ⟨opk, fields, v, hmem2, hop, hfmem⟩
        · exact Or.inl ⟨v, List.mem_cons_of_mem _ hmem2, hop⟩
        · exact Or.inr ⟨opk, fields, v, List.mem_cons_of_mem _ hmem2, hop, hfmem⟩
    · rintro ⟨hdot, hcase⟩
      rcases hcase with ⟨v, hmem2, hop⟩ | ⟨opk, fields, v, hmem2, hop, hfmem⟩
      · rcases List.mem_cons.mp hmem2 with hhead | htail
        · have h1 : k = p1 := congrArg Prod.fst hhead
          subst h1
          refine List.mem_append.mpr (Or.inl ?_)
          rw [if_neg (by rw [hop]; exact Bool.false_ne_true), if_pos hdot]
          exact List.mem_singleton.mpr rfl
        · exact List.mem_append.mpr
            (Or.inr (ih.mpr ⟨hdot, Or.inl ⟨v, htail, hop⟩⟩))
      · rcases List.mem_cons.mp hmem2 with hhead | htail
        · have h1 : opk = p1 := congrArg Prod.fst hhead
          have h2 : Val.obj fields = p2 := congrArg Prod.snd hhead
          subst h1
          refine List.mem_append.mpr (Or.inl ?_)
          rw [if_pos hop, if_pos (by rw [← h2]; rfl)]
          refine List.mem_map.mpr ⟨(k, v), List.mem_filter.mpr ⟨?_, hdot⟩, rfl⟩
          rw [← h2]
          exact hfmem
        · exact List.mem_append.mpr
            (Or.inr (ih.mpr ⟨hdot, Or.inr ⟨opk, fields, v, htail, hop, hfmem⟩⟩))

theorem walkOp_eq_of_ne_unset (opKey : String) (fields : Entries) (acc : Entries)
    (hne : opKey ≠ "$unset") :
    walkOp opKey fields acc = walkOp "$set" fields acc := by
  have hset : ¬ (("$set" : String) = "$unset") := by decide
  induction fields generalizing acc with
  | nil => simp [walkOp]
  | cons q rest ih =>
    by_cases hq : hasDot q.1
    · simp [walkOp, hq]
    · simp [walkOp, hq, hne, hset, ih]

/-- Modelled from the spec: first pass of the reference algorithm (§4.1
step 3) — iterate the update expression's entries in order and handle only
operator-prefixed keys, skipping non-operator entries entirely. Each
operator block's nested entries are dot-checked and written exactly as in
step 3.b, which coincides with the source's inner loop `walkOp`. -/
def specPass1 (entries : Entries) (acc : Entries) : Except String Entries :=
  match entries with
  | [] => .ok acc
  | (key, val) :: rest =>
    if isOpKey key then
      if isNonNullObject val then
        match walkOp key (ownEntries val) acc with
        | .error e => .error e
        | .ok acc2 => specPass1 rest acc2
      else specPass1 rest acc
    else specPass1 rest acc

/-- Modelled from the spec: second pass of the reference algorithm (§4.1
step 4) — iterate the entries again and handle only direct (non-operator)
keys, dot-checking each and writing its value into the accumulator,
overwriting any value placed there by the first pass. -/
def specPass2 (entries : Entries) (acc : Entries) : Except String Entries :=
  match entries with
  | [] => .ok acc
  | (key, val) :: rest =>
    if isOpKey key then specPass2 rest acc
    else
      if hasDot key then .error (dotMsg key)
      else specPass2 rest (setKey acc key val)

/-- Modelled from the spec: the full two-pass reference algorithm of §4.1 —
process all operator entries first (step 3), then all direct entries
(step 4), and return the accumulator (step 5). -/
def specTwoPass (update : Entries) : Except String Entries :=
  match specPass1 update [] with
  | .error e => .error e
  | .ok acc => specPass2 update acc

theorem specPass1_all_ops (e : Entries) (acc : Entries)
    (h : ∀ q ∈ e, isOpKey q.1 = true) :
    specPass1 e acc = walk e acc := by
  induction e generalizing acc with
  | nil => simp [specPass1, walk]
  | cons p rest ih =>
    obtain ⟨key, val⟩ := p
    have hk : isOpKey key = true := h (key, val) (List.mem_cons_self _ _)
    have hrest : ∀ q ∈ rest, isOpKey q.1 = true :=
      fun q hq => h q (List.mem_cons_of_mem _ hq)
    by_cases hv : isNonNullObject val
    · simp only [specPass1, walk, hk, hv, if_true]
      cases walkOp key (ownEntries val) acc with
      | error e0 => rfl
      | ok acc2 => exact ih acc2 hrest
    · simp only [specPass1, walk, hk, if_true]
      rw [if_neg (by simp [hv]), if_neg (by simp [hv])]
      exact ih acc hrest

theorem specPass1_no_ops (e : Entries) (acc : Entries)
    (h : ∀ q ∈ e, isOpKey q.1 = false) :
    specPass1 e acc = .ok acc := by
  induction e generalizing acc with
  | nil => simp [specPass1]
  | cons p rest ih =>
    obtain ⟨key, val⟩ := p
    have hk : isOpKey key = false := h (key, val) (List.mem_cons_self _ _)
    have hrest : ∀ q ∈ rest, isOpKey q.1 = false :=
      fun q hq => h q (List.mem_cons_of_mem _ hq)
    simp only [specPass1]
    rw [if_neg (by simp [hk])]
    exact ih acc hrest

theorem specPass1_append (a b : Entries) (acc : Entries) :
    specPass1 (a ++ b) acc =
      match specPass1 a acc with
      | .error e => .error e
      | .ok m => specPass1 b m := by
  induction a generalizing acc with
  | nil => simp [specPass1]
  | cons p rest ih =>
    obtain ⟨key, val⟩ := p
    by_cases hk : isOpKey key
    · by_cases hv : isNonNullObject val
      · simp only [List.cons_append, specPass1, hk, hv, if_true]
        cases walkOp key (ownEntries val) acc with
        | error e0 => rfl
        | ok acc2 => exact ih acc2
      · simp only [List.cons_append, specPass1, hk, if_true]
        rw [if_neg (by simp [hv]), if_neg (by simp [hv])]
        exact ih acc
    · simp only [List.cons_append, specPass1]
      rw [if_neg (by simp [hk]), if_neg (by simp [hk])]
      exact ih acc

theorem specPass2_no_ops (e : Entries) (acc : Entries)
    (h : ∀ q ∈ e, isOpKey q.1 = false) :
    specPass2 e acc = walk e acc := by
  induction e generalizing acc with
  | nil => simp [specPass2, walk]
  | cons p rest ih =>
    obtain ⟨key, val⟩ := p
    have hk : isOpKey key = false := h (key, val) (List.mem_cons_self _ _)
    have hrest : ∀ q ∈ rest, isOpKey q.1 = false :=
      fun q hq => h q (List.mem_cons_of_mem _ hq)
    by_cases hd : hasDot key
    · simp [specPass2, walk, hk, hd]
    · simp [specPass2, walk, hk, hd, ih _ hrest]

theorem specPass2_all_ops (e : Entries) (acc : Entries)
    (h : ∀ q ∈ e, isOpKey q.1 = true) :
    specPass2 e acc = .ok acc := by
  induction e generalizing acc with
  | nil => simp [specPass2]
  | cons p rest ih =>
    obtain ⟨key, val⟩ := p
    have hk : isOpKey key = true := h (key, val) (List.mem_cons_self _ _)
    have hrest : ∀ q ∈ rest, isOpKey q.1 = true :=
      fun q hq => h q (List.mem_cons_of_mem _ hq)
    simp only [specPass2, hk, if_true]
    exact ih acc hrest

theorem specPass2_append (a b : Entries) (acc : Entries) :
    specPass2 (a ++ b) acc =
      match specPass2 a acc with
      | .error e => .error e
      | .ok m => specPass2 b m := by
  induction a generalizing acc with
  | nil => simp [specPass2]
  | cons p rest ih =>
    obtain ⟨key, val⟩ := p
    by_cases hk : isOpKey key
    · simp only [List.cons_append, specPass2, hk, if_true]
      exact ih acc
    · by_cases hd : hasDot key
      · simp [specPass2, hk, hd]
      · simp [specPass2, hk, hd, ih]

/-- The response shape of `findOne` (`QueryResponseSingle` plus the
optional `queryFilter` echo). `none` stands for `null`/`undefined` in the
respective field. -/
structure QueryResponseSingle where
  data : Option Entries
  error : Option String
  status : String
  queryFilter : Option Entries

/-- The result-shaping logic of `findOne` (`base.repo.ts:262-319`), after
the driver lookup and schema construction. `dbResult` is what
`collection.findOne` returned (`none` for a missed match) and `safeParse`
is `dynamicSchema.safeParse` (success data or a validation error). On a
miss the code returns early with `data: null` and the initial
`status = "ok"`, `error` still unassigned, and `queryFilter` suppressed
because `error` is falsy. -/
def findOne (dbResult : Option Entries)
    (safeParse : Entries → Except String Entries)
    (collectionName : String) (filter : Entries) : QueryResponseSingle :=
  match dbResult with
  | none => { data := none, error := none, status := "ok", queryFilter := none }
  | some doc =>
    match safeParse doc with
    | .ok d => { data := some d, error := none, status := "ok", queryFilter := none }
    | .error _ =>
      { data := none
        error := some ("1 " ++ collectionName ++ " document failed validation during findOne")
        status := "hasErrors"
        queryFilter := some filter }

/-- The response shape of `insertOne`. -/
structure InsertResponse where
  data : Option Entries
  error : Option String
  status : String

/-- `buildInsertPayload` (`base.repo.ts:554-562`): spread the caller's
input, then assign a freshly generated `ObjectId` to `_id` and one shared
`new Date()` timestamp to both `created_at` and `updated_at`, overriding
any caller-supplied values for those three keys. -/
def buildInsertPayload (input : Entries) (freshId : Nat) (now : Nat) : Entries :=
  setKey (setKey (setKey input "_id" (Val.objectId freshId))
    "created_at" (Val.date now)) "updated_at" (Val.date now)

/-- The control flow of `insertOne` (`base.repo.ts:473-543`). `safeParse`
is `this.schema.safeParse`; `driverResult` is the driver call's outcome:
`none` for a thrown driver error, `some ack` for a result with
`acknowledged = ack`. The error strings keep the leading fixed text of the
source messages (the source appends stringified issue data to the first
one). -/
def insertOne (input : Entries) (freshId : Nat) (now : Nat)
    (safeParse : Entries → Except String Entries)
    (driverResult : Option Bool) : InsertResponse :=
  match safeParse (buildInsertPayload input freshId now) with
  | .error _ =>
    { data := none
      error := some "Failed to insert document: schema validation failed"
      status := "hasErrors" }
  | .ok parsedData =>
    match driverResult with
    | none =>
      { data := none, error := some "MongoDB failed to insertOne", status := "hasErrors" }
    | some false =>
      { data := none, error := some "MongoDB failed to acknowledge insert", status := "hasErrors" }
    | some true =>
      { data := some parsedData, error := none, status := "ok" }

end Zongo

namespace Zongo

example :
    extractUpdatePayload [("$set", Val.obj [("name", Val.str "John"), ("status", Val.str "sent")])] =
      Except.ok [("name", Val.str "John"), ("status", Val.str "sent")] := rfl

example :
    extractUpdatePayload [("$unset", Val.obj [("archivedAt", Val.str "")])] =
      Except.ok [("archivedAt", Val.undef)] := rfl

example :
    extractUpdatePayload
      [("$set", Val.obj [("name", Val.str "John")]), ("name", Val.str "Alice")] =
      Except.ok [("name", Val.str "Alice")] := rfl

example :
    extractUpdatePayload [("$set", Val.obj [("user.name", Val.str "Alice")])] =
      Except.error "Dot notation keys are not supported yet: \"user.name\"" := rfl

example :
    extractUpdatePayload [("profile.contact.email", Val.str "a@b.com")] =
      Except.error "Dot notation keys are not supported yet: \"profile.contact.email\"" := rfl

example : extractUpdatePayload [] = Except.ok [] := rfl

example :
    extractUpdatePayload [("name", Val.str "Alice"), ("$set", Val.obj [("name", Val.str "John")])] =
      Except.ok [("name", Val.str "John")] := rfl

example :
    extractUpdatePayload
      [("$set", Val.obj [("status", Val.str "sent"), ("count", Val.num 1)]),
       ("$unset", Val.obj [("archivedAt", Val.str "")]),
       ("last_attempt_at", Val.date 7)] =
      Except.ok
        [("status", Val.str "sent"), ("count", Val.num 1),
         ("archivedAt", Val.undef), ("last_attempt_at", Val.date 7)] := rfl

/-- Claim C1 as stated is false: the walk is a single pass in iteration
order, so when the direct assignment of a field appears BEFORE the operator
block that also assigns it, the operator block overwrites the direct value.
Concretely, for `{status: "sent", $set: {status: "failed"}}` the extracted
payload maps `status` to `"failed"`, not to the direct value `"sent"`. -/
theorem directBeforeOperatorLoses_cex :
    extractUpdatePayload
      [("status", Val.str "sent"), ("$set", Val.obj [("status", Val.str "failed")])] =
      Except.ok [("status", Val.str "failed")] ∧
    lookupKey [("status", Val.str "failed")] "status" ≠ some (Val.str "sent") := by
  refine ⟨rfl, ?_⟩
  intro hcontra
  simp [lookupKey] at hcontra

/-- Claim C1 (amended): when the direct top-level assignment of a field
appears after the operator blocks (no entry after it writes the field),
the direct assignment's value wins in the extracted payload; if an operator
block for the same field appears later in iteration order, the operator
value wins instead (single-pass last-write-wins). -/
theorem directAfterOperatorWins (e1 e2 : Entries) (k : String) (v : Val)
    (p : Entries) (hop : isOpKey k = false)
    (hafter : lastVal (fieldWrites e2) k = none)
    (h : extractUpdatePayload (e1 ++ (k, v) :: e2) = Except.ok p) :
    lookupKey p k = some v := by
  have hdf : dotFreeExpr (e1 ++ (k, v) :: e2) = true := walk_ok_dotFree _ [] p h
  have h2 : (Except.ok (applyWrites [] (fieldWrites (e1 ++ (k, v) :: e2))) :
      Except String Entries) = Except.ok p := by
    rw [← h]
    exact (walk_ok _ [] hdf).symm
  have hp : p = applyWrites [] (fieldWrites (e1 ++ (k, v) :: e2)) :=
    (Except.ok.inj h2).symm
  subst hp
  have hew : entryWrites (k, v) = [(k, v)] := by
    simp [entryWrites, hop]
  have hW : fieldWrites (e1 ++ (k, v) :: e2) =
      fieldWrites e1 ++ ([(k, v)] ++ fieldWrites e2) := by
    rw [fieldWrites_append]
    congr 1
    show entryWrites (k, v) ++ fieldWrites e2 = [(k, v)] ++ fieldWrites e2
    rw [hew]
  rw [hW, lookupKey_applyWrites, lastVal_append, lastVal_append, hafter]
  simp [lastVal]

theorem directAfterOperatorWins_witness :
    lookupKey [("name", Val.str "Alice"), ("count", Val.num 1)] "name" =
      some (Val.str "Alice") :=
  directAfterOperatorWins
    [("$set", Val.obj [("name", Val.str "John")])]
    [("$inc", Val.obj [("count", Val.num 1)])]
    "name" (Val.str "Alice")
    [("name", Val.str "Alice"), ("count", Val.num 1)]
    rfl rfl rfl

/-- Claim C2: any field name containing the path separator — as a direct
top-level key or nested inside an operator block — makes
`extractUpdatePayload` fail with the exact message
`Dot notation keys are not supported yet: "<fieldName>"` citing an
offending key verbatim, and no payload at all is returned. -/
theorem dotKeyAbortsExtraction (entries : Entries) (k : String)
    (hoff : isOffendingKey entries k) :
    ∃ k2, isOffendingKey entries k2 ∧
      extractUpdatePayload entries = Except.error (dotMsg k2) ∧
      ∀ p, extractUpdatePayload entries ≠ Except.ok p := by
  have hmem : k ∈ dottedKeys entries := (mem_dottedKeys_iff entries k).mpr hoff
  cases hd : dottedKeys entries with
  | nil =>
    rw [hd] at hmem
    simp at hmem
  | cons k0 ks =>
    have herr : walk entries [] = Except.error (dotMsg k0) :=
      walk_error_of_dotted entries [] k0 ks hd
    have hmem0 : k0 ∈ dottedKeys entries := by
      rw [hd]
      exact List.mem_cons_self k0 ks
    refine ⟨k0, (mem_dottedKeys_iff entries k0).mp hmem0, herr, ?_⟩
    intro p hp
    have hboth : Except.error (dotMsg k0) = Except.ok p := by
      rw [← hp]
      exact herr.symm
    exact Except.noConfusion hboth

theorem dotKeyAbortsExtraction_witness :
    isOffendingKey [("$set", Val.obj [("user.name", Val.str "Alice")])] "user.name" ∧
    (∃ k2, isOffendingKey [("$set", Val.obj [("user.name", Val.str "Alice")])] k2 ∧
      extractUpdatePayload [("$set", Val.obj [("user.name", Val.str "Alice")])] =
        Except.error (dotMsg k2) ∧
      ∀ p, extractUpdatePayload [("$set", Val.obj [("user.name", Val.str "Alice")])] ≠
        Except.ok p) :=
  have hoff : isOffendingKey [("$set", Val.obj [("user.name", Val.str "Alice")])]
      "user.name" :=
    ⟨rfl, Or.inr ⟨"$set", [("user.name", Val.str "Alice")], Val.str "Alice",
      List.mem_cons_self _ _, rfl, List.mem_cons_self _ _⟩⟩
  ⟨hoff, dotKeyAbortsExtraction _ _ hoff⟩

/-- Claim C3: on an update expression whose keys are all operator-prefixed
and whose nested field names are dot-free, extraction succeeds; a field is
present in the payload exactly when some operator block mentions it, and
its value is the one of the last write in iteration order, with `$unset`
writes contributing the absence marker `undefined` (the key stays
present). -/
theorem opsOnlyExtraction (entries : Entries)
    (hops : ∀ q ∈ entries, isOpKey q.1 = true)
    (hdf : dotFreeExpr entries = true) :
    ∃ p, extractUpdatePayload entries = Except.ok p ∧
      (∀ f, lookupKey p f = lastVal (fieldWrites entries) f) ∧
      (∀ f, (lookupKey p f).isSome = true ↔ ∃ q ∈ fieldWrites entries, q.1 = f) := by
  refine ⟨applyWrites [] (fieldWrites entries), walk_ok entries [] hdf, ?_, ?_⟩
  · intro f
    rw [lookupKey_applyWrites]
    cases lastVal (fieldWrites entries) f <;> simp [lookupKey]
  · intro f
    rw [lookupKey_applyWrites, ← lastVal_isSome_iff]
    cases lastVal (fieldWrites entries) f <;> simp [lookupKey]

theorem opsOnlyExtraction_witness :
    (∀ q ∈ ([("$set", Val.obj [("status", Val.str "sent"), ("count", Val.num 1)]),
        ("$unset", Val.obj [("archivedAt", Val.str "")])] : Entries),
      isOpKey q.1 = true) ∧
    dotFreeExpr [("$set", Val.obj [("status", Val.str "sent"), ("count", Val.num 1)]),
        ("$unset", Val.obj [("archivedAt", Val.str "")])] = true ∧
    (∃ p, extractUpdatePayload
        [("$set", Val.obj [("status", Val.str "sent"), ("count", Val.num 1)]),
         ("$unset", Val.obj [("archivedAt", Val.str "")])] = Except.ok p ∧
      (∀ f, lookupKey p f = lastVal (fieldWrites
        [("$set", Val.obj [("status", Val.str "sent"), ("count", Val.num 1)]),
         ("$unset", Val.obj [("archivedAt", Val.str "")])]) f) ∧
      (∀ f, (lookupKey p f).isSome = true ↔ ∃ q ∈ fieldWrites
        [("$set", Val.obj [("status", Val.str "sent"), ("count", Val.num 1)]),
         ("$unset", Val.obj [("archivedAt", Val.str "")])], q.1 = f)) :=
  ⟨by decide, rfl, opsOnlyExtraction _ (by decide) rfl⟩

/-- Claim C4: when two different operator blocks both assign the same
dot-free field and nothing after the second block writes that field again,
the extracted value is the one contributed by the operator block appearing
later in iteration order — with a later `$unset` contributing the absence
marker `undefined`. -/
theorem laterOperatorWins (a b c : Entries) (op1 op2 : String)
    (fs1 fs2 : Entries) (f : String) (v : Val) (p : Entries)
    (h1 : isOpKey op1 = true) (h2 : isOpKey op2 = true) (hne : op1 ≠ op2)
    (hf1 : ∃ q ∈ fs1, q.1 = f)
    (hf2 : lastVal fs2 f = some v)
    (hc : lastVal (fieldWrites c) f = none)
    (h : extractUpdatePayload
      (a ++ (op1, Val.obj fs1) :: b ++ (op2, Val.obj fs2) :: c) = Except.ok p) :
    lookupKey p f = some (if op2 = "$unset" then Val.undef else v) := by
  have hdf := walk_ok_dotFree _ [] p h
  have hok : (Except.ok (applyWrites [] (fieldWrites
      (a ++ (op1, Val.obj fs1) :: b ++ (op2, Val.obj fs2) :: c))) :
      Except String Entries) = Except.ok p := by
    rw [← h]
    exact (walk_ok _ [] hdf).symm
  have hp : p = applyWrites [] (fieldWrites
      (a ++ (op1, Val.obj fs1) :: b ++ (op2, Val.obj fs2) :: c)) :=
    (Except.ok.inj hok).symm
  subst hp
  have hew2 : entryWrites (op2, Val.obj fs2) =
      fs2.map (fun q => (q.1, if op2 = "$unset" then Val.undef else q.2)) := by
    simp [entryWrites, h2, isNonNullObject, ownEntries]
  have hcons2 : fieldWrites ((op2, Val.obj fs2) :: c) =
      entryWrites (op2, Val.obj fs2) ++ fieldWrites c := rfl
  rw [lookupKey_applyWrites, fieldWrites_append, hcons2, hew2, lastVal_append,
    lastVal_append, hc,
    lastVal_map_opVal fs2 f (fun x => if op2 = "$unset" then Val.undef else x), hf2]
  simp

theorem laterOperatorWins_witness :
    lookupKey [("count", Val.num 5)] "count" =
      some (if ("$inc" : String) = "$unset" then Val.undef else Val.num 5) :=
  laterOperatorWins [] [] [] "$set" "$inc"
    [("count", Val.num 1)] [("count", Val.num 5)] "count" (Val.num 5)
    [("count", Val.num 5)]
    rfl rfl (by decide)
    ⟨("count", Val.num 1), List.mem_cons_self _ _, rfl⟩
    rfl rfl rfl

/-- Claim C5: a value assigned to a dot-free field under `$set` is placed
in the extracted payload as exactly the same value — no clone, no
recursive unwrapping, arbitrary nesting preserved — and only the top-level
field name is dot-checked: the value `v` is entirely unconstrained, so
dotted keys inside it cause no failure. -/
theorem setValueVerbatim (f : String) (v : Val) (hd : hasDot f = false) :
    extractUpdatePayload [("$set", Val.obj [(f, v)])] = Except.ok [(f, v)] := by
  have h1 : isOpKey "$set" = true := rfl
  have h2 : ¬ (("$set" : String) = "$unset") := by decide
  simp [extractUpdatePayload, walk, walkOp, ownEntries, isNonNullObject, setKey,
    hd, h1, h2]

theorem setValueVerbatim_witness :
    hasDot "level1" = false ∧
    extractUpdatePayload
      [("$set", Val.obj [("level1", Val.obj
        [("level2", Val.obj [("level3", Val.obj
          [("value", Val.str "deep"), ("inner.dot", Val.str "ok")])]),
         ("someVal", Val.str "hey")])])] =
      Except.ok
        [("level1", Val.obj
          [("level2", Val.obj [("level3", Val.obj
            [("value", Val.str "deep"), ("inner.dot", Val.str "ok")])]),
           ("someVal", Val.str "hey")])] :=
  ⟨rfl, setValueVerbatim "level1" (Val.obj
    [("level2", Val.obj [("level3", Val.obj
      [("value", Val.str "deep"), ("inner.dot", Val.str "ok")])]),
     ("someVal", Val.str "hey")]) rfl⟩

/-- Claim C6 as stated is false: `extractUpdatePayload` is not equivalent
to the spec's two-pass reference algorithm on every dot-free update
expression. On `{count: 1, $inc: {count: 5}}` the single-pass source gives
`count = 5` (the later operator entry overwrites the earlier direct one),
while the two-pass algorithm gives `count = 1` (the direct entry is
replayed after all operator entries). -/
theorem twoPassDisagrees_cex :
    dotFreeExpr [("count", Val.num 1), ("$inc", Val.obj [("count", Val.num 5)])] = true ∧
    extractUpdatePayload [("count", Val.num 1), ("$inc", Val.obj [("count", Val.num 5)])] =
      Except.ok [("count", Val.num 5)] ∧
    specTwoPass [("count", Val.num 1), ("$inc", Val.obj [("count", Val.num 5)])] =
      Except.ok [("count", Val.num 1)] ∧
    extractUpdatePayload [("count", Val.num 1), ("$inc", Val.obj [("count", Val.num 5)])] ≠
      specTwoPass [("count", Val.num 1), ("$inc", Val.obj [("count", Val.num 5)])] := by
  refine ⟨rfl, rfl, rfl, ?_⟩
  intro hcontra
  have hL : extractUpdatePayload
      [("count", Val.num 1), ("$inc", Val.obj [("count", Val.num 5)])] =
      Except.ok [("count", Val.num 5)] := rfl
  have hR : specTwoPass
      [("count", Val.num 1), ("$inc", Val.obj [("count", Val.num 5)])] =
      Except.ok [("count", Val.num 1)] := rfl
  rw [hL, hR] at hcontra
  simp at hcontra

/-- Claim C6 (amended): `extractUpdatePayload` agrees with the spec's
two-pass reference algorithm on every update expression in which all
operator-prefixed entries precede all direct entries (in particular on
pure-operator and pure-direct expressions); in general the source is
single-pass, so an operator entry occurring after a direct entry for the
same field overwrites it, unlike the two-pass algorithm. -/
theorem twoPassAgreesOpsFirst (ops directs : Entries)
    (hops : ∀ q ∈ ops, isOpKey q.1 = true)
    (hdir : ∀ q ∈ directs, isOpKey q.1 = false) :
    extractUpdatePayload (ops ++ directs) = specTwoPass (ops ++ directs) := by
  have hp1 : specPass1 (ops ++ directs) [] = walk ops [] := by
    rw [specPass1_append, specPass1_all_ops ops [] hops]
    cases hw0 : walk ops [] with
    | error e => rfl
    | ok m => exact specPass1_no_ops directs m hdir
  have hL : extractUpdatePayload (ops ++ directs) =
      match walk ops [] with
      | .error e => .error e
      | .ok m => walk directs m := walk_append ops directs []
  have hR : specTwoPass (ops ++ directs) =
      match walk ops [] with
      | .error e => .error e
      | .ok m => specPass2 (ops ++ directs) m := by
    show (match specPass1 (ops ++ directs) [] with
      | Except.error e => Except.error e
      | Except.ok acc => specPass2 (ops ++ directs) acc) =
      match walk ops [] with
      | Except.error e => Except.error e
      | Except.ok m => specPass2 (ops ++ directs) m
    rw [hp1]
  rw [hL, hR]
  cases hw : walk ops [] with
  | error e => rfl
  | ok m =>
    show walk directs m = specPass2 (ops ++ directs) m
    rw [specPass2_append, specPass2_all_ops ops m hops]
    show walk directs m = specPass2 directs m
    exact (specPass2_no_ops directs m hdir).symm

theorem twoPassAgreesOpsFirst_witness :
    (∀ q ∈ ([("$set", Val.obj [("name", Val.str "John")])] : Entries),
      isOpKey q.1 = true) ∧
    (∀ q ∈ ([("name", Val.str "Alice")] : Entries), isOpKey q.1 = false) ∧
    extractUpdatePayload
      ([("$set", Val.obj [("name", Val.str "John")])] ++ [("name", Val.str "Alice")]) =
      specTwoPass
        ([("$set", Val.obj [("name", Val.str "John")])] ++ [("name", Val.str "Alice")]) :=
  ⟨by decide, by decide,
    twoPassAgreesOpsFirst [("$set", Val.obj [("name", Val.str "John")])]
      [("name", Val.str "Alice")] (by decide) (by decide)⟩

/-- Claim C7: an entry whose key begins with the operator prefix but whose
value is not a non-null object is skipped: it contributes no keys and
raises no error, and the remaining entries are processed exactly as if the
entry were absent. -/
theorem nonObjectOperatorSkipped (pre post : Entries) (k : String) (v : Val)
    (hk : isOpKey k = true) (hv : isNonNullObject v = false) :
    extractUpdatePayload (pre ++ (k, v) :: post) = extractUpdatePayload (pre ++ post) := by
  show walk (pre ++ (k, v) :: post) [] = walk (pre ++ post) []
  rw [walk_append, walk_append]
  cases walk pre [] with
  | error e => rfl
  | ok m =>
    show walk ((k, v) :: post) m = walk post m
    simp [walk, hk, hv]

theorem nonObjectOperatorSkipped_witness :
    isOpKey "$inc" = true ∧
    isNonNullObject (Val.num 5) = false ∧
    extractUpdatePayload
      ([("$set", Val.obj [("name", Val.str "John")])] ++
        ("$inc", Val.num 5) :: [("count", Val.num 2)]) =
      extractUpdatePayload
        ([("$set", Val.obj [("name", Val.str "John")])] ++ [("count", Val.num 2)]) :=
  ⟨rfl, rfl,
    nonObjectOperatorSkipped [("$set", Val.obj [("name", Val.str "John")])]
      [("count", Val.num 2)] "$inc" (Val.num 5) rfl rfl⟩

/-- Claim C8: the walk distinguishes operator keys only by exact equality
with "$unset": any other `$`-prefixed key — `$inc`, `$push`, `$rename`,
`$setOnInsert`, anything — is processed exactly like `$set`, writing its
nested dot-free entries verbatim into the payload; unknown operators are
neither ignored as a block nor rejected. -/
theorem unknownOperatorActsAsSet (k : String) (hk : isOpKey k = true)
    (hne : k ≠ "$unset") :
    (∀ (pre post : Entries) (v : Val),
      extractUpdatePayload (pre ++ (k, v) :: post) =
        extractUpdatePayload (pre ++ ("$set", v) :: post)) ∧
    (∀ fs : Entries, fs.all (fun q => !hasDot q.1) = true →
      extractUpdatePayload [(k, Val.obj fs)] = Except.ok (applyWrites [] fs)) := by
  have hset : isOpKey "$set" = true := rfl
  constructor
  · intro pre post v
    show walk (pre ++ (k, v) :: post) [] = walk (pre ++ ("$set", v) :: post) []
    rw [walk_append, walk_append]
    cases walk pre [] with
    | error e => rfl
    | ok m =>
      show walk ((k, v) :: post) m = walk (("$set", v) :: post) m
      by_cases hv : isNonNullObject v
      · simp only [walk, hk, hset, hv, if_true]
        rw [walkOp_eq_of_ne_unset k (ownEntries v) m hne]
      · simp [walk, hk, hset, hv]
  · intro fs hfs
    show walk [(k, Val.obj fs)] [] = _
    have hobj : isNonNullObject (Val.obj fs) = true := rfl
    simp only [walk, hk, hobj, if_true]
    rw [show ownEntries (Val.obj fs) = fs from rfl,
      walkOp_eq_of_ne_unset k fs [] hne, walkOp_ok "$set" fs [] hfs]
    have hmap : fs.map
        (fun q => (q.1, if ("$set" : String) = "$unset" then Val.undef else q.2)) = fs := by
      have hset2 : ¬ (("$set" : String) = "$unset") := by decide
      simp [hset2]
    rw [hmap]

theorem unknownOperatorActsAsSet_witness :
    isOpKey "$rename" = true ∧ "$rename" ≠ "$unset" ∧
    extractUpdatePayload
      ([("a", Val.num 3)] ++ ("$rename", Val.obj [("b", Val.num 4)]) :: []) =
      extractUpdatePayload
        ([("a", Val.num 3)] ++ ("$set", Val.obj [("b", Val.num 4)]) :: []) ∧
    extractUpdatePayload [("$rename", Val.obj [("nick", Val.str "n")])] =
      Except.ok (applyWrites [] [("nick", Val.str "n")]) :=
  ⟨rfl, by decide,
    (unknownOperatorActsAsSet "$rename" rfl (by decide)).1
      [("a", Val.num 3)] [] (Val.obj [("b", Val.num 4)]),
    (unknownOperatorActsAsSet "$rename" rfl (by decide)).2
      [("nick", Val.str "n")] rfl⟩

/-- Claim C9: when the driver lookup finds no document, `findOne` returns
`data = null` with `status = "ok"`, no error set and no `queryFilter`
echoed: a missed match is not an error at the public interface. -/
theorem findOneMissReturnsOk (safeParse : Entries → Except String Entries)
    (collectionName : String) (filter : Entries) :
    findOne none safeParse collectionName filter =
      { data := none, error := none, status := "ok", queryFilter := none } := rfl

/-- Claim C10: `insertOne` builds the inserted document by overriding any
caller-supplied `_id`, `created_at` or `updated_at` with a freshly
generated `ObjectId` and one shared timestamp, so — provided the schema's
`safeParse` passes those three fields through unchanged, as plain object
validation does — every document returned by a successful `insertOne`
carries the fresh `_id` and satisfies `created_at = updated_at`. -/
theorem insertOneFreshIdAndTimestamps (input : Entries) (freshId now : Nat)
    (safeParse : Entries → Except String Entries) (driverResult : Option Bool)
    (d : Entries)
    (hpres : ∀ x d2, safeParse x = Except.ok d2 →
      lookupKey d2 "_id" = lookupKey x "_id" ∧
      lookupKey d2 "created_at" = lookupKey x "created_at" ∧
      lookupKey d2 "updated_at" = lookupKey x "updated_at")
    (hdata : (insertOne input freshId now safeParse driverResult).data = some d) :
    lookupKey d "_id" = some (Val.objectId freshId) ∧
    lookupKey d "created_at" = some (Val.date now) ∧
    lookupKey d "updated_at" = some (Val.date now) ∧
    lookupKey d "created_at" = lookupKey d "updated_at" ∧
    (insertOne input freshId now safeParse driverResult).status = "ok" := by
  have hb1 : lookupKey (buildInsertPayload input freshId now) "updated_at" =
      some (Val.date now) := by
    rw [buildInsertPayload, lookupKey_setKey]
    simp
  have hb2 : lookupKey (buildInsertPayload input freshId now) "created_at" =
      some (Val.date now) := by
    have hne : ¬ (("created_at" : String) = "updated_at") := by decide
    rw [buildInsertPayload, lookupKey_setKey, if_neg hne, lookupKey_setKey]
    simp
  have hb3 : lookupKey (buildInsertPayload input freshId now) "_id" =
      some (Val.objectId freshId) := by
    have hne1 : ¬ (("_id" : String) = "updated_at") := by decide
    have hne2 : ¬ (("_id" : String) = "created_at") := by decide
    rw [buildInsertPayload, lookupKey_setKey, if_neg hne1, lookupKey_setKey,
      if_neg hne2, lookupKey_setKey]
    simp
  cases hsp : safeParse (buildInsertPayload input freshId now) with
  | error e => simp [insertOne, hsp] at hdata
  | ok parsedData =>
    cases driverResult with
    | none => simp [insertOne, hsp] at hdata
    | some ack =>
      cases ack with
      | false => simp [insertOne, hsp] at hdata
      | true =>
        have hd : parsedData = d := by
          simpa [insertOne, hsp] using hdata
        subst hd
        obtain ⟨e1, e2, e3⟩ := hpres _ _ hsp
        refine ⟨?_, ?_, ?_, ?_, ?_⟩
        · rw [e1, hb3]
        · rw [e2, hb2]
        · rw [e3, hb1]
        · rw [e2, e3, hb1, hb2]
        · simp [insertOne, hsp]

theorem insertOneFreshIdAndTimestamps_witness :
    lookupKey [("_id", Val.objectId 7), ("created_at", Val.date 5),
      ("name", Val.str "Bob"), ("updated_at", Val.date 5)] "_id" =
      some (Val.objectId 7) ∧
    lookupKey [("_id", Val.objectId 7), ("created_at", Val.date 5),
      ("name", Val.str "Bob"), ("updated_at", Val.date 5)] "created_at" =
      some (Val.date 5) ∧
    lookupKey [("_id", Val.objectId 7), ("created_at", Val.date 5),
      ("name", Val.str "Bob"), ("updated_at", Val.date 5)] "updated_at" =
      some (Val.date 5) ∧
    lookupKey [("_id", Val.objectId 7), ("created_at", Val.date 5),
      ("name", Val.str "Bob"), ("updated_at", Val.date 5)] "created_at" =
      lookupKey [("_id", Val.objectId 7), ("created_at", Val.date 5),
        ("name", Val.str "Bob"), ("updated_at", Val.date 5)] "updated_at" ∧
    (insertOne [("_id", Val.objectId 99), ("created_at", Val.date 1),
      ("name", Val.str "Bob")] 7 5 (fun x => Except.ok x) (some true)).status = "ok" :=
  insertOneFreshIdAndTimestamps
    [("_id", Val.objectId 99), ("created_at", Val.date 1), ("name", Val.str "Bob")]
    7 5 (fun x => Except.ok x) (some true)
    [("_id", Val.objectId 7), ("created_at", Val.date 5),
      ("name", Val.str "Bob"), ("updated_at", Val.date 5)]
    (fun x d2 h => by
      cases h
      exact ⟨rfl, rfl, rfl⟩)
    rfl

end Zongo
